import Mathlib

/-
Shallow embedding of src/src/consumer_complaints.py.

Modelling conventions:
- File I/O is abstracted away: the CSV reader is modelled as a function on the
  list of already-split rows (each row a list of field strings), and the CSV
  writer as a function producing the output file content as a string.
- An uncaught Python exception (IndexError, ZeroDivisionError, StopIteration)
  is modelled as Except.error; a skipped row (the function returning None and
  the caller continuing) is modelled as Except.ok none.
- Python dicts preserve insertion order, so the nested defaultdict is modelled
  as an insertion-ordered association list; updating an existing key keeps its
  position, and a fresh key is appended at the end.
- datetime.strptime with format %Y-%m-%d is modelled after the CPython
  _strptime regular expressions: %Y matches exactly four digits, %m matches
  1[0-2]|0[1-9]|[1-9], %d matches 3[01]|[12]d|0[1-9]|[1-9], the separators are
  literal, the whole string must be consumed, and the resulting triple must
  pass the datetime range checks (year at least 1, day at most the month
  length). Digits are modelled as ASCII digits.
- str.strip / str.lower are modelled by String.trim / String.toLower (the
  ASCII fragment, which covers every field the claims mention).
- The percentage expression round(max/total*100) is evaluated by Python in
  IEEE binary64 arithmetic: the int/int true division and the multiplication
  by the exactly representable 100.0 each round their exact result to the
  nearest double (round half to even over 53 significant bits, with the
  subnormal quantum below 2 to the -1022), and the builtin round then maps
  that double to the nearest integer, ties to even. The model represents each
  double exactly as a mantissa times a power of two and performs these three
  roundings on exact integers. Overflow cannot occur: the share is at most
  100. pyRound, the exact-rational round-half-to-even, describes the final
  step: the builtin round applied to a double equals pyRound of the exact
  rational value of that double (theorem fpRound_eq_pyRound).
-/

/-- Whitespace characters removed by str.strip (the ASCII fragment). -/
def isPySpace (c : Char) : Bool :=
  c == ' ' || c == '\t' || c == '\n' || c == '\r' || c == '\x0b' || c == '\x0c'

/-- Model of the helper clean_text: strip leading and trailing whitespace and
lowercase the text, as txt.strip().lower(). -/
def clean_text (txt : String) : String :=
  String.mk ((((txt.data.dropWhile isPySpace).reverse.dropWhile isPySpace).reverse).map Char.toLower)

/-- Numeric value of an ASCII digit character. -/
def digitVal (c : Char) : Nat :=
  c.toNat - 48

/-- Gregorian leap-year rule used by datetime. -/
def isLeapYear (y : Nat) : Bool :=
  y % 4 == 0 && (y % 100 != 0 || y % 400 == 0)

/-- Number of days in a month, as validated by the datetime constructor. -/
def daysInMonth (y m : Nat) : Nat :=
  if m == 2 then (if isLeapYear y then 29 else 28)
  else if m == 4 || m == 6 || m == 9 || m == 11 then 30
  else 31

/-- The strptime %m field: one digit 1-9, or two digits 01-09 or 10-12. -/
def monthOfChars : List Char → Option Nat
  | [c] => if c.isDigit && c != '0' then some (digitVal c) else none
  | [c1, c2] =>
      if c1 == '0' && c2.isDigit && c2 != '0' then some (digitVal c2)
      else if c1 == '1' && (c2 == '0' || c2 == '1' || c2 == '2') then
        some (10 + digitVal c2)
      else none
  | _ => none

/-- The strptime %d field: one digit 1-9, or two digits 01-09, 10-29, 30, 31. -/
def dayOfChars : List Char → Option Nat
  | [c] => if c.isDigit && c != '0' then some (digitVal c) else none
  | [c1, c2] =>
      if c1 == '0' && c2.isDigit && c2 != '0' then some (digitVal c2)
      else if (c1 == '1' || c1 == '2') && c2.isDigit then
        some (10 * digitVal c1 + digitVal c2)
      else if c1 == '3' && (c2 == '0' || c2 == '1') then some (30 + digitVal c2)
      else none
  | _ => none

/-- The part of the date string after the four year digits and the first
dash: a month field, a literal dash, and a day field, consuming everything. -/
def parseMonthDay : List Char → Option (Nat × Nat)
  | [m1, '-', d1] =>
      (monthOfChars [m1]).bind fun m => (dayOfChars [d1]).map fun d => (m, d)
  | [m1, '-', d1, d2] =>
      (monthOfChars [m1]).bind fun m => (dayOfChars [d1, d2]).map fun d => (m, d)
  | [m1, m2, '-', d1] =>
      (monthOfChars [m1, m2]).bind fun m => (dayOfChars [d1]).map fun d => (m, d)
  | [m1, m2, '-', d1, d2] =>
      (monthOfChars [m1, m2]).bind fun m => (dayOfChars [d1, d2]).map fun d => (m, d)
  | _ => none

/-- Model of get_year: datetime.strptime(date_str, %Y-%m-%d).year, returning
none when parsing or the datetime range checks fail (the bare except). -/
def get_year (date_str : String) : Option Nat :=
  match date_str.data with
  | y1 :: y2 :: y3 :: y4 :: '-' :: rest =>
      if y1.isDigit && y2.isDigit && y3.isDigit && y4.isDigit then
        match parseMonthDay rest with
        | some (m, d) =>
            let y := 1000 * digitVal y1 + 100 * digitVal y2 + 10 * digitVal y3 + digitVal y4
            if 1 ≤ y && d ≤ daysInMonth y m then some y else none
        | none => none
      else none
  | _ => none

/-- Model of data_filter. Except.ok none is a skipped row (the function
returned None after printing a diagnostic); Except.error is an uncaught
IndexError from row[0], row[1] or row[7]; Except.ok (some (year, product,
company)) is the returned list [year, clean_text(row[1]), clean_text(row[7])]. -/
def data_filter (row : List String) (num_columns : Nat) :
    Except String (Option (Nat × String × String)) :=
  if row.length ≠ num_columns then .ok none
  else
    match row[0]? with
    | none => .error "IndexError: list index out of range"
    | some d =>
        match get_year d with
        | none => .ok none
        | some year =>
            match row[1]?, row[7]? with
            | some p, some c => .ok (some (year, clean_text p, clean_text c))
            | _, _ => .error "IndexError: list index out of range"

/-- One inner defaultdict of read_csv: complaint counts per company, as an
insertion-ordered association list. -/
abbrev CompanyCounts := List (String × Nat)

/-- The outer defaultdict of read_csv: company counts per (product, year)
key, as an insertion-ordered association list. -/
abbrev Agg := List ((String × Nat) × CompanyCounts)

/-- The inner defaultdict increment: data_dictionary[key][company] += 1 on one
inner dict. An existing company keeps its position; a new company is appended
with count 0 + 1 = 1. -/
def bump : CompanyCounts → String → CompanyCounts
  | [], c => [(c, 1)]
  | (c0, n) :: rest, c =>
      if c0 = c then (c0, n + 1) :: rest else (c0, n) :: bump rest c

/-- The full nested increment data_dictionary[(product, year)][company] += 1.
An existing key keeps its position; a fresh key is appended with a fresh inner
dict. -/
def addComplaint : Agg → (String × Nat) → String → Agg
  | [], k, c => [(k, [(c, 1)])]
  | (k0, cc) :: rest, k, c =>
      if k0 = k then (k0, bump cc c) :: rest else (k0, cc) :: addComplaint rest k c

/-- First-match lookup in an inner dict. -/
def lookupCC : CompanyCounts → String → Option Nat
  | [], _ => none
  | (c0, n) :: rest, c => if c0 = c then some n else lookupCC rest c

/-- First-match lookup in the outer dict. -/
def lookupAgg : Agg → (String × Nat) → Option CompanyCounts
  | [], _ => none
  | (k0, cc) :: rest, k => if k0 = k then some cc else lookupAgg rest k

/-- The count stored for a company under a key, with the defaultdict default
of 0 when either level is absent. -/
def countOf (agg : Agg) (k : String × Nat) (c : String) : Nat :=
  match lookupAgg agg k with
  | none => 0
  | some cc => (lookupCC cc c).getD 0

/-- The row loop of read_csv: each data row goes through data_filter; a
skipped row leaves the dictionary unchanged and processing continues; a
surviving row increments data_dictionary[(product, year)][company]. An
uncaught exception from data_filter aborts the loop. -/
def read_csv_loop (num_columns : Nat) (agg : Agg) :
    List (List String) → Except String Agg
  | [] => .ok agg
  | row :: rest =>
      match data_filter row num_columns with
      | .error e => .error e
      | .ok none => read_csv_loop num_columns agg rest
      | .ok (some (year, product, company)) =>
          read_csv_loop num_columns (addComplaint agg (product, year) company) rest

/-- Model of read_csv on the parsed rows of the file: the first row is the
header and only its length is used; next(csv_reader) on an empty file raises
StopIteration. -/
def read_csv (csvRows : List (List String)) : Except String Agg :=
  match csvRows with
  | [] => .error "StopIteration"
  | header :: dataRows => read_csv_loop header.length [] dataRows

/-- A validated record as produced by data_filter: [year, product, company]. -/
structure Record where
  year : Nat
  product : String
  company : String
  deriving DecidableEq

/-- One iteration of the aggregation on an already-validated record. -/
def addRecord (agg : Agg) (r : Record) : Agg :=
  addComplaint agg (r.product, r.year) r.company

/-- Aggregating a list of validated records, as the read_csv loop does once
data_filter has accepted them. -/
def aggRecords (rs : List Record) : Agg :=
  rs.foldl addRecord []

/-- The number of records of a list carrying a given group key and company. -/
def keyCount (rs : List Record) (k : String × Nat) (c : String) : Nat :=
  (rs.filter fun r => decide ((r.product, r.year) = k ∧ r.company = c)).length

/-- The structural invariant of the aggregation dictionary: keys are not
repeated at either level, every inner dict is non-empty, and every stored
count is at least 1. -/
def AggInv (agg : Agg) : Prop :=
  (agg.map Prod.fst).Nodup ∧
    ∀ e ∈ agg, (e.2.map Prod.fst).Nodup ∧ e.2 ≠ [] ∧ ∀ p ∈ e.2, 1 ≤ p.2

/-- Model of the Python builtin round on the exact rational value:
round-half-to-even. -/
def pyRound (q : ℚ) : ℤ :=
  if q - Int.floor q < 1 / 2 then Int.floor q
  else if (1 : ℚ) / 2 < q - Int.floor q then Int.floor q + 1
  else if Int.floor q % 2 = 0 then Int.floor q else Int.floor q + 1

/-- The fraction a / b rounded half to even, on natural numbers: the integer
rounding primitive of the binary64 model below. For b ≠ 0 it equals pyRound
of the exact rational a / b (theorem pyRound_natCast_div below). -/
def divRound (a b : Nat) : Nat :=
  if 2 * (a % b) < b then a / b
  else if b < 2 * (a % b) then a / b + 1
  else if (a / b) % 2 = 0 then a / b else a / b + 1

/-- Floor of the base-2 logarithm of n, by fuel-bounded halving (any fuel of
at least n works). -/
def log2F : Nat → Nat → Nat
  | 0, _ => 0
  | fuel + 1, n => if n ≤ 1 then 0 else log2F fuel (n / 2) + 1

/-- Floor of the base-2 logarithm of a positive natural number. -/
def natLog2 (n : Nat) : Nat :=
  log2F n n

/-- The smallest s with m2^s at least t, by fuel-bounded doubling (any fuel
of at least t works, for positive m). -/
def upLog2F : Nat → Nat → Nat → Nat
  | 0, _, _ => 0
  | fuel + 1, m, t => if t ≤ m then 0 else upLog2F fuel (2 * m) t + 1

/-- Floor of the base-2 logarithm of the positive rational m / t. -/
def ratFloorLog2 (m t : Nat) : Int :=
  if t ≤ m then (natLog2 (m / t) : Int) else -(upLog2F t m t : Int)

/-- A finite nonnegative binary64 value, represented exactly as its integer
significand times a power of two. -/
structure Fp where
  mant : Nat
  scale : Int
  deriving DecidableEq

/-- The exact rational value of a represented double. -/
def fpVal (x : Fp) : ℚ :=
  (x.mant : ℚ) * (2 : ℚ) ^ x.scale

/-- The exponent of one unit in the last place of a binary64 value whose
floor base-2 logarithm is e: 53 significant bits in the normal range, the
fixed quantum 2 to the -1074 below it. -/
def ulpExp (e : Int) : Int :=
  (if e ≤ -1022 then (-1022 : Int) else e) - 52

/-- Round the rational m / t half to even onto the grid of the multiples of
2^u, returning the resulting significand. -/
def mantAt (m t : Nat) (u : Int) : Nat :=
  if 0 ≤ u then divRound m (t * 2 ^ u.toNat)
  else divRound (m * 2 ^ (-u).toNat) t

/-- The nearest binary64 to m / t, round half to even: the semantics of the
int/int true division max/total in the percentage expression. -/
def floatDiv (m t : Nat) : Fp :=
  if m = 0 then ⟨0, 0⟩
  else
    let u := ulpExp (ratFloorLog2 m t)
    ⟨mantAt m t u, u⟩

/-- The nearest binary64 to 100 times a represented double, round half to
even: the semantics of the multiplication by the exact 100.0 in the
percentage expression. -/
def floatMul100 (x : Fp) : Fp :=
  if x.mant = 0 then ⟨0, 0⟩
  else
    let u := ulpExp (x.scale + (natLog2 (x.mant * 100) : Int))
    if x.scale ≤ u then ⟨divRound (x.mant * 100) (2 ^ (u - x.scale).toNat), u⟩
    else ⟨x.mant * 100 * 2 ^ (x.scale - u).toNat, u⟩

/-- The Python builtin round applied to a represented double: the nearest
integer, ties to even. -/
def fpRound (x : Fp) : Nat :=
  if 0 ≤ x.scale then x.mant * 2 ^ x.scale.toNat
  else divRound x.mant (2 ^ (-x.scale).toNat)

/-- Model of round(max/total*100) on line 111: the division and the
multiplication evaluated in binary64 and the builtin round applied to the
resulting double. -/
def pyRoundPercent (mx total : Nat) : Nat :=
  fpRound (floatMul100 (floatDiv mx total))

/-- One output row of analyse_data:
[product, year, total_num_of_complaints, total_num_of_companies,
highest_complaint_percent]. -/
structure ReportRow where
  product : String
  year : Nat
  total_complaints : Nat
  total_companies : Nat
  highest_complaint_percent : Nat
  deriving DecidableEq

/-- The inner loop of analyse_data: starting from 0 and 0, accumulate the
total complaint count and the maximum single-company count. -/
def totalAndMax (cc : CompanyCounts) : Nat × Nat :=
  cc.foldl (fun acc kv => (acc.1 + kv.2, if kv.2 > acc.2 then kv.2 else acc.2)) (0, 0)

/-- The body of the analyse_data loop for one (product, year) group. A zero
total makes the division max/total raise ZeroDivisionError, modelled as an
error; otherwise the percentage is round(max/total*100) with the division
and the multiplication evaluated in binary64. -/
def analyse_group (e : (String × Nat) × CompanyCounts) : Except String ReportRow :=
  if (totalAndMax e.2).1 = 0 then .error "ZeroDivisionError: division by zero"
  else .ok
    { product := e.1.1
      year := e.1.2
      total_complaints := (totalAndMax e.2).1
      total_companies := e.2.length
      highest_complaint_percent :=
        pyRoundPercent (totalAndMax e.2).2 (totalAndMax e.2).1 }

/-- Model of analyse_data: one report row per group, in dictionary order; the
first raised exception aborts the loop. -/
def analyse_data : Agg → Except String (List ReportRow)
  | [] => .ok []
  | e :: rest =>
      match analyse_group e with
      | .error msg => .error msg
      | .ok row =>
          match analyse_data rest with
          | .error msg => .error msg
          | .ok rows => .ok (row :: rows)

/-- The report row analyse_data produces for a group whose total is nonzero. -/
def rowFor (e : (String × Nat) × CompanyCounts) : ReportRow :=
  { product := e.1.1
    year := e.1.2
    total_complaints := (totalAndMax e.2).1
    total_companies := e.2.length
    highest_complaint_percent :=
      pyRoundPercent (totalAndMax e.2).2 (totalAndMax e.2).1 }

/-- Python string comparison: lexicographic on code points, with a proper
prefix smaller than the longer string. -/
def strLtB : List Char → List Char → Bool
  | [], [] => false
  | [], _ :: _ => true
  | _ :: _, [] => false
  | a :: as, b :: bs =>
      if a.toNat < b.toNat then true
      else if b.toNat < a.toNat then false
      else strLtB as bs

/-- The strict string order used by the sort key. -/
def strLt (a b : String) : Prop :=
  strLtB a.data b.data = true

/-- The sort key comparison of sort_write_csv: ascending by the tuple
(product, year), with Python string comparison on the product. -/
def leRow (a b : ReportRow) : Prop :=
  strLt a.product b.product ∨ (a.product = b.product ∧ a.year ≤ b.year)

instance : DecidableRel leRow := fun a b => by
  unfold leRow strLt
  infer_instance

/-- The identity of the group a report row came from. -/
def rowKey (r : ReportRow) : String × Nat :=
  (r.product, r.year)

/-- Model of sorted(report_list, key=lambda x: (x[0], x[1])): a stable sort by
the (product, year) key, realized by insertion sort, which agrees with every
stable sort for this comparison. -/
def sortRows (rows : List ReportRow) : List ReportRow :=
  List.insertionSort leRow rows

/-- Quoting rule of csv.writer with the default dialect: a field is quoted
only when it contains the delimiter, the quote character, or a line break. -/
def csvNeedsQuoting (s : String) : Bool :=
  s.data.any fun ch => ch == ',' || ch == '"' || ch == '\r' || ch == '\n'

/-- Double every quote character in the field, as csv.writer does inside a
quoted field. -/
def csvQuote (s : String) : String :=
  String.mk (s.data.foldr (fun ch acc => if ch == '"' then '"' :: '"' :: acc else ch :: acc) [])

/-- One serialized CSV field under the default dialect. -/
def csvField (s : String) : String :=
  if csvNeedsQuoting s then "\"" ++ csvQuote s ++ "\"" else s

/-- One serialized CSV record of the writer: the five fields in the order
product, year, total_complaints, total_companies, highest_complaint_percent,
comma separated, with the default \r\n line terminator. -/
def writeRow (r : ReportRow) : String :=
  String.intercalate ","
    [csvField r.product, csvField (toString r.year), csvField (toString r.total_complaints),
      csvField (toString r.total_companies), csvField (toString r.highest_complaint_percent)]
    ++ "\r\n"

/-- Model of sort_write_csv: the content written to the output file, with no
header row. -/
def sort_write_csv (report_list : List ReportRow) : String :=
  String.join ((sortRows report_list).map writeRow)

/-- Two characters with the same code point are equal. -/
theorem char_eq_of_toNat_eq {a b : Char} (h : a.toNat = b.toNat) : a = b :=
  Char.eq_of_val_eq (UInt32.toNat.inj h)

/-- The string comparison is irreflexive. -/
theorem strLtB_irrefl : ∀ as : List Char, strLtB as as = false
  | [] => rfl
  | a :: as => by simp [strLtB, Nat.lt_irrefl, strLtB_irrefl as]

/-- The string comparison is transitive. -/
theorem strLtB_trans : ∀ as bs cs : List Char,
    strLtB as bs = true → strLtB bs cs = true → strLtB as cs = true := by
  intro as
  induction as with
  | nil =>
      intro bs cs h1 h2
      cases bs with
      | nil => simp [strLtB] at h1
      | cons b bs =>
          cases cs with
          | nil => simp [strLtB] at h2
          | cons c cs => simp [strLtB]
  | cons a as ih =>
      intro bs cs h1 h2
      cases bs with
      | nil => simp [strLtB] at h1
      | cons b bs =>
          cases cs with
          | nil => simp [strLtB] at h2
          | cons c cs =>
              simp only [strLtB] at h1 h2 ⊢
              by_cases hab : a.toNat < b.toNat
              · by_cases hbc : b.toNat < c.toNat
                · simp [Nat.lt_trans hab hbc]
                · rcases Nat.lt_or_ge c.toNat b.toNat with hcb | hcb
                  · simp [hbc, hcb] at h2
                  · have : a.toNat < c.toNat := Nat.lt_of_lt_of_le hab hcb
                    simp [this]
              · rcases Nat.lt_or_ge b.toNat a.toNat with hba | hba
                · simp [hab, hba] at h1
                · have hab2 : a.toNat = b.toNat := by omega
                  by_cases hbc : b.toNat < c.toNat
                  · simp [hab2 ▸ hbc]
                  · rcases Nat.lt_or_ge c.toNat b.toNat with hcb | hcb
                    · simp [hbc, hcb] at h2
                    · have hbc2 : b.toNat = c.toNat := by omega
                      have hac : a.toNat = c.toNat := hab2.trans hbc2
                      simp only [hab2, Nat.lt_irrefl, if_false] at h1
                      simp only [hbc2, Nat.lt_irrefl, if_false] at h2
                      simp [hac, Nat.lt_irrefl, ih bs cs h1 h2]

/-- Two character lists neither of which is below the other are equal. -/
theorem strLtB_eq_of_not_lt : ∀ as bs : List Char,
    strLtB as bs = false → strLtB bs as = false → as = bs := by
  intro as
  induction as with
  | nil =>
      intro bs h1 _
      cases bs with
      | nil => rfl
      | cons b bs => simp [strLtB] at h1
  | cons a as ih =>
      intro bs h1 h2
      cases bs with
      | nil => simp [strLtB] at h2
      | cons b bs =>
          simp only [strLtB] at h1 h2
          by_cases hab : a.toNat < b.toNat
          · simp [hab] at h1
          · by_cases hba : b.toNat < a.toNat
            · simp [hba] at h2
            · have hab2 : a = b := char_eq_of_toNat_eq (by omega)
              simp only [hab, hba, if_false] at h1 h2
              rw [hab2, ih bs h1 h2]

/-- The strict string order is asymmetric. -/
theorem strLt_asymm {a b : String} (h1 : strLt a b)(h2 : strLt b a) : False := by
  have := strLtB_trans a.data b.data a.data h1 h2
  rw [strLtB_irrefl] at this
  exact Bool.false_ne_true this

/-- Two strings neither of which is below the other are equal. -/
theorem strEq_of_not_lt {a b : String} (h1 : ¬ strLt a b) (h2 : ¬ strLt b a) : a = b := by
  have hd : a.data = b.data :=
    strLtB_eq_of_not_lt a.data b.data (Bool.eq_false_iff.mpr h1) (Bool.eq_false_iff.mpr h2)
  cases a
  cases b
  exact congrArg String.mk hd

/-- The row comparison is total. -/
theorem leRow_total : ∀ a b : ReportRow, leRow a b ∨ leRow b a := by
  intro a b
  by_cases h1 : strLt a.product b.product
  · exact Or.inl (Or.inl h1)
  · by_cases h2 : strLt b.product a.product
    · exact Or.inr (Or.inl h2)
    · have heq : a.product = b.product := strEq_of_not_lt h1 h2
      rcases Nat.le_total a.year b.year with h3 | h3
      · exact Or.inl (Or.inr ⟨heq, h3⟩)
      · exact Or.inr (Or.inr ⟨heq.symm, h3⟩)

/-- The row comparison is transitive. -/
theorem leRow_trans : ∀ a b c : ReportRow, leRow a b → leRow b c → leRow a c := by
  intro a b c hab hbc
  rcases hab with hab | ⟨hab, hab2⟩
  · rcases hbc with hbc | ⟨hbc, _⟩
    · exact Or.inl (strLtB_trans _ _ _ hab hbc)
    · exact Or.inl (hbc ▸ hab)
  · rcases hbc with hbc | ⟨hbc, hbc2⟩
    · exact Or.inl (by rw [strLt, hab]; exact hbc)
    · exact Or.inr ⟨hab.trans hbc, hab2.trans hbc2⟩

/-- Mutually comparable rows have the same group key. -/
theorem rowKey_eq_of_le_le {a b : ReportRow} (hab : leRow a b) (hba : leRow b a) :
    rowKey a = rowKey b := by
  rcases hab with hab | ⟨hab, hab2⟩
  · rcases hba with hba | ⟨hba, _⟩
    · exact absurd hba (fun h => strLt_asymm hab h)
    · exact absurd hab (by rw [hba]; exact fun h => strLt_asymm h h)
  · rcases hba with hba | ⟨hba, hba2⟩
    · exact absurd hba (by rw [hab]; exact fun h => strLt_asymm h h)
    · simp [rowKey, hab, Nat.le_antisymm hab2 hba2]

/-- The sorted output of sortRows is a permutation of its input. -/
theorem sortRows_perm (rows : List ReportRow) : (sortRows rows).Perm rows :=
  List.perm_insertionSort leRow rows

/-- The output of sortRows is sorted for the row comparison. -/
theorem sortRows_sorted (rows : List ReportRow) : (sortRows rows).Sorted leRow := by
  haveI : IsTotal ReportRow leRow := ⟨leRow_total⟩
  haveI : IsTrans ReportRow leRow := ⟨leRow_trans⟩
  exact List.sorted_insertionSort leRow rows

/-- Two sorted lists that are permutations of each other and have no repeated
group key are equal. -/
theorem eq_of_sorted_of_perm : ∀ (l1 l2 : List ReportRow), l1.Perm l2 →
    l1.Sorted leRow → l2.Sorted leRow → (l1.map rowKey).Nodup → l1 = l2 := by
  intro l1
  induction l1 with
  | nil =>
      intro l2 hp _ _ _
      exact (hp.symm.eq_nil).symm
  | cons a t1 ih =>
      intro l2 hp hs1 hs2 hnd
      cases l2 with
      | nil => exact absurd hp.eq_nil (by simp)
      | cons b t2 =>
          by_cases hab : a = b
          · subst hab
            have ht : t1.Perm t2 := hp.cons_inv
            have := ih t2 ht (List.sorted_cons.mp hs1).2 (List.sorted_cons.mp hs2).2
              (by simpa using (List.nodup_cons.mp (by simpa using hnd)).2)
            rw [this]
          · have hamem : a ∈ b :: t2 := hp.mem_iff.mp (List.mem_cons_self a t1)
            have hbmem : b ∈ a :: t1 := hp.mem_iff.mpr (List.mem_cons_self b t2)
            have hat2 : a ∈ t2 := by
              rcases List.mem_cons.mp hamem with h | h
              · exact absurd h hab
              · exact h
            have hbt1 : b ∈ t1 := by
              rcases List.mem_cons.mp hbmem with h | h
              · exact absurd h.symm hab
              · exact h
            have h1 : leRow a b := (List.sorted_cons.mp hs1).1 b hbt1
            have h2 : leRow b a := (List.sorted_cons.mp hs2).1 a hat2
            have hkey : rowKey a = rowKey b := rowKey_eq_of_le_le h1 h2
            have : rowKey a ∉ t1.map rowKey := (List.nodup_cons.mp (by simpa using hnd)).1
            exact absurd (hkey ▸ List.mem_map_of_mem rowKey hbt1) this

/-- Sorting two permuted row lists without repeated group keys gives the same
list. -/
theorem sortRows_eq_of_perm {l1 l2 : List ReportRow} (h : l1.Perm l2)
    (hnd : (l1.map rowKey).Nodup) : sortRows l1 = sortRows l2 := by
  refine eq_of_sorted_of_perm _ _ ?_ (sortRows_sorted l1) (sortRows_sorted l2) ?_
  · exact (sortRows_perm l1).trans (h.trans (sortRows_perm l2).symm)
  · exact (((sortRows_perm l1).map rowKey).nodup_iff).mpr hnd

/-- Effect of the inner increment on lookups: the incremented company reads
one more than its defaulted old value, every other company is unchanged. -/
theorem lookupCC_bump (cc : CompanyCounts) (c c0 : String) :
    lookupCC (bump cc c) c0 =
      if c0 = c then some ((lookupCC cc c).getD 0 + 1) else lookupCC cc c0 := by
  induction cc with
  | nil =>
      by_cases h : c0 = c
      · simp [bump, lookupCC, h]
      · simp [bump, lookupCC, h, Ne.symm h]
  | cons p rest ih =>
      obtain ⟨c1, n⟩ := p
      by_cases h1 : c1 = c
      · subst h1
        by_cases h0 : c0 = c1
        · simp [bump, lookupCC, h0]
        · simp [bump, lookupCC, h0, Ne.symm h0]
      · by_cases h0 : c0 = c1
        · subst h0
          simp [bump, lookupCC, h1, Ne.symm h1]
        · simp [bump, lookupCC, h1, Ne.symm h0, ih]

/-- Effect of the nested increment on outer lookups: the incremented key reads
the bump of its defaulted old inner dict, every other key is unchanged. -/
theorem lookupAgg_addComplaint (agg : Agg) (k : String × Nat) (c : String) (k0 : String × Nat) :
    lookupAgg (addComplaint agg k c) k0 =
      if k0 = k then some (bump ((lookupAgg agg k).getD []) c) else lookupAgg agg k0 := by
  induction agg with
  | nil =>
      by_cases h : k0 = k
      · simp [addComplaint, lookupAgg, h, bump]
      · simp [addComplaint, lookupAgg, h, Ne.symm h]
  | cons e rest ih =>
      obtain ⟨k1, cc⟩ := e
      by_cases h1 : k1 = k
      · subst h1
        by_cases h0 : k0 = k1
        · simp [addComplaint, lookupAgg, h0]
        · simp [addComplaint, lookupAgg, h0, Ne.symm h0]
      · by_cases h0 : k0 = k1
        · subst h0
          simp [addComplaint, lookupAgg, h1, Ne.symm h1]
        · simp [addComplaint, lookupAgg, h1, Ne.symm h0, ih]

/-- Effect of the nested increment on the stored counts: the incremented pair
goes up by one from its defaulted old value, every other pair is unchanged. -/
theorem countOf_addComplaint (agg : Agg) (k : String × Nat) (c : String)
    (k0 : String × Nat) (c0 : String) :
    countOf (addComplaint agg k c) k0 c0 =
      countOf agg k0 c0 + if k0 = k ∧ c0 = c then 1 else 0 := by
  by_cases hk : k0 = k
  · subst hk
    by_cases hc : c0 = c
    · subst hc
      cases hl : lookupAgg agg k0 with
      | none => simp [countOf, lookupAgg_addComplaint, lookupCC_bump, hl, lookupCC]
      | some cc => simp [countOf, lookupAgg_addComplaint, lookupCC_bump, hl]
    · cases hl : lookupAgg agg k0 with
      | none => simp [countOf, lookupAgg_addComplaint, lookupCC_bump, hl, lookupCC, hc, Ne.symm hc]
      | some cc => simp [countOf, lookupAgg_addComplaint, lookupCC_bump, hl, hc]
  · simp [countOf, lookupAgg_addComplaint, hk]

/-- keyCount on a cons adds one exactly when the head record matches. -/
theorem keyCount_cons (r : Record) (rs : List Record) (k : String × Nat) (c : String) :
    keyCount (r :: rs) k c =
      keyCount rs k c + if (r.product, r.year) = k ∧ r.company = c then 1 else 0 := by
  by_cases h : (r.product, r.year) = k ∧ r.company = c
  · simp [keyCount, List.filter_cons, h]
  · simp [keyCount, List.filter_cons, h]

/-- Folding the aggregation over a record list adds the per-record counts to
every stored count. -/
theorem countOf_foldl (rs : List Record) : ∀ (agg : Agg) (k : String × Nat) (c : String),
    countOf (rs.foldl addRecord agg) k c = countOf agg k c + keyCount rs k c := by
  induction rs with
  | nil => intro agg k c; simp [keyCount]
  | cons r rs ih =>
      intro agg k c
      rw [List.foldl_cons, ih, keyCount_cons]
      show countOf (addComplaint agg (r.product, r.year) r.company) k c + keyCount rs k c = _
      rw [countOf_addComplaint]
      by_cases h : k = (r.product, r.year) ∧ c = r.company
      · rw [if_pos h, if_pos ⟨h.1.symm, h.2.symm⟩]
        omega
      · rw [if_neg h, if_neg (fun hh => h ⟨hh.1.symm, hh.2.symm⟩)]
        omega

/-- The aggregation of a record list stores exactly the number of matching
records at every key and company. -/
theorem countOf_aggRecords (rs : List Record) (k : String × Nat) (c : String) :
    countOf (aggRecords rs) k c = keyCount rs k c := by
  have h := countOf_foldl rs [] k c
  simpa [aggRecords, countOf, lookupAgg] using h

/-- The inner increment never produces an empty dict. -/
theorem bump_ne_nil (cc : CompanyCounts) (c : String) : bump cc c ≠ [] := by
  cases cc with
  | nil => simp [bump]
  | cons p rest =>
      obtain ⟨c0, n⟩ := p
      by_cases h : c0 = c <;> simp [bump, h]

/-- The inner increment keeps the stored companies, appending the new company
only when it was absent. -/
theorem bump_map_fst (cc : CompanyCounts) (c : String) :
    (bump cc c).map Prod.fst =
      if c ∈ cc.map Prod.fst then cc.map Prod.fst else cc.map Prod.fst ++ [c] := by
  induction cc with
  | nil => simp [bump]
  | cons p rest ih =>
      obtain ⟨c0, n⟩ := p
      by_cases h : c0 = c
      · subst h
        simp [bump]
      · by_cases hm : c ∈ rest.map Prod.fst
        · simp [bump, h, Ne.symm h, hm, ih]
        · simp [bump, h, Ne.symm h, hm, ih]

/-- The inner increment keeps every count at least 1. -/
theorem bump_pos (cc : CompanyCounts) (c : String) (h : ∀ p ∈ cc, 1 ≤ p.2) :
    ∀ p ∈ bump cc c, 1 ≤ p.2 := by
  induction cc with
  | nil => simp [bump]
  | cons q rest ih =>
      obtain ⟨c0, n⟩ := q
      by_cases hc : c0 = c
      · subst hc
        intro p hp
        rcases List.mem_cons.mp (by simpa [bump] using hp) with hh | hh
        · simp [hh]
        · exact h p (List.mem_cons_of_mem _ hh)
      · intro p hp
        rcases List.mem_cons.mp (by simpa [bump, hc] using hp) with hh | hh
        · exact hh ▸ h (c0, n) (List.mem_cons_self _ _)
        · exact ih (fun q hq => h q (List.mem_cons_of_mem _ hq)) p hh

/-- The nested increment keeps the stored keys, appending the new key only
when it was absent. -/
theorem addComplaint_map_fst (agg : Agg) (k : String × Nat) (c : String) :
    (addComplaint agg k c).map Prod.fst =
      if k ∈ agg.map Prod.fst then agg.map Prod.fst else agg.map Prod.fst ++ [k] := by
  induction agg with
  | nil => simp [addComplaint]
  | cons e rest ih =>
      obtain ⟨k0, cc⟩ := e
      by_cases h : k0 = k
      · subst h
        simp [addComplaint]
      · by_cases hm : k ∈ rest.map Prod.fst
        · simp [addComplaint, h, Ne.symm h, hm, ih]
        · simp [addComplaint, h, Ne.symm h, hm, ih]

/-- Every entry after a nested increment is an old entry or the bump of an
old (possibly fresh empty) inner dict at the incremented key. -/
theorem addComplaint_entries (agg : Agg) (k : String × Nat) (c : String) :
    ∀ e ∈ addComplaint agg k c,
      e ∈ agg ∨ ∃ cc, e = (k, bump cc c) ∧ (cc = [] ∨ (k, cc) ∈ agg) := by
  induction agg with
  | nil =>
      intro e he
      refine Or.inr ⟨[], ?_, Or.inl rfl⟩
      simpa [addComplaint, bump] using he
  | cons q rest ih =>
      obtain ⟨k0, cc0⟩ := q
      intro e he
      by_cases h : k0 = k
      · subst h
        rcases List.mem_cons.mp (by simpa [addComplaint] using he) with hh | hh
        · exact Or.inr ⟨cc0, hh, Or.inr (List.mem_cons_self _ _)⟩
        · exact Or.inl (List.mem_cons_of_mem _ hh)
      · rcases List.mem_cons.mp (by simpa [addComplaint, h] using he) with hh | hh
        · exact Or.inl (hh ▸ List.mem_cons_self _ _)
        · rcases ih e hh with hmem | ⟨cc, he2, hcc⟩
          · exact Or.inl (List.mem_cons_of_mem _ hmem)
          · refine Or.inr ⟨cc, he2, ?_⟩
            rcases hcc with hcc | hcc
            · exact Or.inl hcc
            · exact Or.inr (List.mem_cons_of_mem _ hcc)

/-- The nested increment preserves the aggregation invariant. -/
theorem AggInv_addComplaint (agg : Agg) (k : String × Nat) (c : String)
    (h : AggInv agg) : AggInv (addComplaint agg k c) := by
  obtain ⟨hK, hE⟩ := h
  constructor
  · rw [addComplaint_map_fst]
    by_cases hm : k ∈ agg.map Prod.fst
    · simpa [hm] using hK
    · simp [hm, List.nodup_append, hK, List.disjoint_singleton]
  · intro e he
    rcases addComplaint_entries agg k c e he with hmem | ⟨cc, he2, hcc⟩
    · exact hE e hmem
    · have base : (cc.map Prod.fst).Nodup ∧ ∀ p ∈ cc, 1 ≤ p.2 := by
        rcases hcc with hcc | hcc
        · subst hcc
          simp
        · exact ⟨(hE (k, cc) hcc).1, (hE (k, cc) hcc).2.2⟩
      subst he2
      refine ⟨?_, bump_ne_nil cc c, bump_pos cc c base.2⟩
      rw [bump_map_fst]
      by_cases hm : c ∈ cc.map Prod.fst
      · simpa [hm] using base.1
      · simp [hm, List.nodup_append, base.1, List.disjoint_singleton]

/-- The empty aggregation satisfies the invariant. -/
theorem AggInv_nil : AggInv [] := by
  constructor
  · simp
  · simp

/-- Folding records into an invariant aggregation preserves the invariant. -/
theorem AggInv_foldl (rs : List Record) : ∀ agg : Agg, AggInv agg →
    AggInv (rs.foldl addRecord agg) := by
  induction rs with
  | nil => intro agg h; exact h
  | cons r rs ih =>
      intro agg h
      exact ih _ (AggInv_addComplaint agg (r.product, r.year) r.company h)

/-- The aggregation of any record list satisfies the invariant. -/
theorem AggInv_aggRecords (rs : List Record) : AggInv (aggRecords rs) :=
  AggInv_foldl rs [] AggInv_nil

/-- The read loop preserves the aggregation invariant. -/
theorem AggInv_read_csv_loop (rows : List (List String)) : ∀ (n : Nat) (agg agg2 : Agg),
    AggInv agg → read_csv_loop n agg rows = .ok agg2 → AggInv agg2 := by
  induction rows with
  | nil =>
      intro n agg agg2 hI h
      simp only [read_csv_loop] at h
      cases h
      exact hI
  | cons row rest ih =>
      intro n agg agg2 hI h
      simp only [read_csv_loop] at h
      cases hf : data_filter row n with
      | error e => rw [hf] at h; cases h
      | ok o =>
          cases o with
          | none => rw [hf] at h; exact ih n agg agg2 hI h
          | some t =>
              obtain ⟨y, p, c⟩ := t
              rw [hf] at h
              exact ih n _ agg2 (AggInv_addComplaint agg (p, y) c hI) h

/-- Any aggregation read_csv returns satisfies the invariant. -/
theorem AggInv_read_csv (csvRows : List (List String)) (agg : Agg)
    (h : read_csv csvRows = .ok agg) : AggInv agg := by
  cases csvRows with
  | nil => cases h
  | cons header dataRows =>
      exact AggInv_read_csv_loop dataRows header.length [] agg AggInv_nil h

/-- A row rejected by data_filter can be removed from the stream without
changing the read loop at all: the dictionary is untouched and the remaining
rows are processed the same way. -/
theorem read_csv_loop_skip (n : Nat) (row : List String)
    (h : data_filter row n = .ok none) (pre post : List (List String)) (agg : Agg) :
    read_csv_loop n agg (pre ++ row :: post) = read_csv_loop n agg (pre ++ post) := by
  induction pre generalizing agg with
  | nil => simp [read_csv_loop, h]
  | cons q pre ih =>
      simp only [List.cons_append, read_csv_loop]
      cases hq : data_filter q n with
      | error e => rfl
      | ok o =>
          cases o with
          | none => exact ih agg
          | some t =>
              obtain ⟨y, p, c⟩ := t
              exact ih (addComplaint agg (p, y) c)

/-- The running-maximum update of the analyse loop is the maximum. -/
theorem maxIf (a b : Nat) : (if b > a then b else a) = Nat.max a b := by
  rcases Nat.lt_or_ge a b with h | h
  · rw [if_pos h]
    exact (Nat.max_eq_right (Nat.le_of_lt h)).symm
  · rw [if_neg (Nat.not_lt.mpr h)]
    exact (Nat.max_eq_left h).symm

/-- The analyse loop over one group computes the sum and the maximum of the
stored counts. -/
theorem totalAndMax_eq (cc : CompanyCounts) :
    totalAndMax cc = ((cc.map Prod.snd).sum, (cc.map Prod.snd).foldr Nat.max 0) := by
  have key : ∀ (l : List (String × Nat)) (a b : Nat),
      l.foldl (fun acc kv => (acc.1 + kv.2, if kv.2 > acc.2 then kv.2 else acc.2)) (a, b) =
        (a + (l.map Prod.snd).sum, Nat.max b ((l.map Prod.snd).foldr Nat.max 0)) := by
    intro l
    induction l with
    | nil => intro a b; simp
    | cons p rest ih =>
        intro a b
        rw [List.foldl_cons, ih]
        simp [maxIf, Nat.add_assoc, Nat.max_assoc]
  rw [totalAndMax, key]
  simp

/-- Folding the maximum is invariant under permutation. -/
theorem foldr_max_perm {l l2 : List Nat} (h : l.Perm l2) :
    l.foldr Nat.max 0 = l2.foldr Nat.max 0 := by
  induction h with
  | nil => rfl
  | cons x h ih => simp [ih]
  | swap x y l => simp [Nat.max_left_comm]
  | trans h1 h2 ih1 ih2 => exact ih1.trans ih2

/-- The report row of a group depends on the inner dict only up to
permutation. -/
theorem rowFor_congr {k : String × Nat} {cc cc2 : CompanyCounts} (h : cc.Perm cc2) :
    rowFor (k, cc) = rowFor (k, cc2) := by
  have hm : (cc.map Prod.snd).Perm (cc2.map Prod.snd) := h.map Prod.snd
  simp [rowFor, totalAndMax_eq, hm.sum_eq, foldr_max_perm hm, h.length_eq]

/-- A non-empty group with positive counts has a positive total. -/
theorem totalAndMax_pos {cc : CompanyCounts} (hne : cc ≠ []) (hpos : ∀ p ∈ cc, 1 ≤ p.2) :
    1 ≤ (totalAndMax cc).1 := by
  rw [totalAndMax_eq]
  cases cc with
  | nil => exact absurd rfl hne
  | cons p rest =>
      have h1 := hpos p (List.mem_cons_self p rest)
      simp only [List.map_cons, List.sum_cons]
      omega

/-- A group with a nonzero total is analysed without error, to its report
row. -/
theorem analyse_group_ok (e : (String × Nat) × CompanyCounts)
    (h : (totalAndMax e.2).1 ≠ 0) : analyse_group e = .ok (rowFor e) := by
  simp [analyse_group, rowFor, h]

/-- When every group has a nonzero total, analyse_data returns one report row
per group, in dictionary order. -/
theorem analyse_data_ok (agg : Agg) (h : ∀ e ∈ agg, (totalAndMax e.2).1 ≠ 0) :
    analyse_data agg = .ok (agg.map rowFor) := by
  induction agg with
  | nil => rfl
  | cons e rest ih =>
      have he := h e (List.mem_cons_self e rest)
      have hrest := ih fun x hx => h x (List.mem_cons_of_mem e hx)
      simp only [analyse_data, analyse_group_ok e he, hrest, List.map_cons]

/-- Under the aggregation invariant every group total is nonzero. -/
theorem AggInv_total_ne_zero {agg : Agg} (h : AggInv agg) :
    ∀ e ∈ agg, (totalAndMax e.2).1 ≠ 0 := by
  intro e he
  have := totalAndMax_pos (h.2 e he).2.1 (h.2 e he).2.2
  omega

/-- The outer lookup fails exactly on absent keys. -/
theorem lookupAgg_eq_none (agg : Agg) (k : String × Nat) :
    lookupAgg agg k = none ↔ k ∉ agg.map Prod.fst := by
  induction agg with
  | nil => simp [lookupAgg]
  | cons e rest ih =>
      obtain ⟨k0, cc⟩ := e
      by_cases h : k0 = k
      · subst h
        simp [lookupAgg]
      · simp [lookupAgg, h, Ne.symm h, ih]

/-- A successful outer lookup returns a stored entry. -/
theorem lookupAgg_mem {agg : Agg} {k : String × Nat} {cc : CompanyCounts}
    (h : lookupAgg agg k = some cc) : (k, cc) ∈ agg := by
  induction agg with
  | nil => cases h
  | cons e rest ih =>
      obtain ⟨k0, cc0⟩ := e
      by_cases h0 : k0 = k
      · subst h0
        simp [lookupAgg] at h
        simp [h]
      · simp [lookupAgg, h0] at h
        exact List.mem_cons_of_mem _ (ih h)

/-- With no repeated keys, a stored entry is what the outer lookup returns. -/
theorem mem_lookupAgg {agg : Agg} {k : String × Nat} {cc : CompanyCounts}
    (hnd : (agg.map Prod.fst).Nodup) (h : (k, cc) ∈ agg) : lookupAgg agg k = some cc := by
  induction agg with
  | nil => cases h
  | cons e rest ih =>
      obtain ⟨k0, cc0⟩ := e
      rcases List.mem_cons.mp h with hh | hh
      · rw [Prod.mk.injEq] at hh
        simp [lookupAgg, hh.1, hh.2]
      · have hk : k0 ≠ k := by
          intro he
          subst he
          exact (List.nodup_cons.mp (by simpa using hnd)).1
            (List.mem_map_of_mem Prod.fst hh)
        simp [lookupAgg, hk, ih (List.nodup_cons.mp (by simpa using hnd)).2 hh]

/-- The inner lookup fails exactly on absent companies. -/
theorem lookupCC_eq_none (cc : CompanyCounts) (c : String) :
    lookupCC cc c = none ↔ c ∉ cc.map Prod.fst := by
  induction cc with
  | nil => simp [lookupCC]
  | cons p rest ih =>
      obtain ⟨c0, n⟩ := p
      by_cases h : c0 = c
      · subst h
        simp [lookupCC]
      · simp [lookupCC, h, Ne.symm h, ih]

/-- A successful inner lookup returns a stored pair. -/
theorem lookupCC_mem {cc : CompanyCounts} {c : String} {n : Nat}
    (h : lookupCC cc c = some n) : (c, n) ∈ cc := by
  induction cc with
  | nil => cases h
  | cons p rest ih =>
      obtain ⟨c0, n0⟩ := p
      by_cases h0 : c0 = c
      · subst h0
        simp [lookupCC] at h
        simp [h]
      · simp [lookupCC, h0] at h
        exact List.mem_cons_of_mem _ (ih h)

/-- With no repeated companies, a stored pair is what the inner lookup
returns. -/
theorem mem_lookupCC {cc : CompanyCounts} {c : String} {n : Nat}
    (hnd : (cc.map Prod.fst).Nodup) (h : (c, n) ∈ cc) : lookupCC cc c = some n := by
  induction cc with
  | nil => cases h
  | cons p rest ih =>
      obtain ⟨c0, n0⟩ := p
      rcases List.mem_cons.mp h with hh | hh
      · rw [Prod.mk.injEq] at hh
        simp [lookupCC, hh.1, hh.2]
      · have hc : c0 ≠ c := by
          intro he
          subst he
          exact (List.nodup_cons.mp (by simpa using hnd)).1
            (List.mem_map_of_mem Prod.fst hh)
        simp [lookupCC, hc, ih (List.nodup_cons.mp (by simpa using hnd)).2 hh]

/-- Under the invariant, the pairs stored in an entry are exactly the
nonzero counts of the aggregation at that key. -/
theorem mem_inner_iff {agg : Agg} (hInv : AggInv agg) {k : String × Nat}
    {cc : CompanyCounts} (hin : (k, cc) ∈ agg) (c : String) (n : Nat) :
    (c, n) ∈ cc ↔ (n ≠ 0 ∧ countOf agg k c = n) := by
  have hLA : lookupAgg agg k = some cc := mem_lookupAgg hInv.1 hin
  constructor
  · intro h
    have hpos : 1 ≤ n := (hInv.2 (k, cc) hin).2.2 (c, n) h
    have hLC : lookupCC cc c = some n := mem_lookupCC (hInv.2 (k, cc) hin).1 h
    refine ⟨by omega, ?_⟩
    simp [countOf, hLA, hLC]
  · rintro ⟨hn, hcount⟩
    simp only [countOf, hLA] at hcount
    cases hLC : lookupCC cc c with
    | none => simp [hLC] at hcount; exact absurd hcount.symm hn
    | some m =>
        rw [hLC] at hcount
        simp at hcount
        exact hcount ▸ lookupCC_mem hLC

/-- Every report row of one invariant aggregation appears among the report
rows of another invariant aggregation storing the same counts. -/
theorem mem_rows_mono {A A2 : Agg} (hIA : AggInv A) (hIA2 : AggInv A2)
    (hcount : ∀ k c, countOf A k c = countOf A2 k c) :
    ∀ x ∈ A.map rowFor, x ∈ A2.map rowFor := by
  intro x hx
  obtain ⟨e, he, rfl⟩ := List.mem_map.mp hx
  obtain ⟨k, cc⟩ := e
  obtain ⟨p, hp⟩ := List.exists_mem_of_ne_nil cc (hIA.2 (k, cc) he).2.1
  obtain ⟨c1, n1⟩ := p
  have h1 : n1 ≠ 0 ∧ countOf A k c1 = n1 := (mem_inner_iff hIA he c1 n1).mp hp
  have h2 : countOf A2 k c1 = n1 := (hcount k c1) ▸ h1.2
  cases hLA2 : lookupAgg A2 k with
  | none =>
      rw [countOf, hLA2] at h2
      exact absurd h2.symm h1.1
  | some cc2 =>
      have he2 : (k, cc2) ∈ A2 := lookupAgg_mem hLA2
      have hperm : cc.Perm cc2 := by
        refine (List.perm_ext_iff_of_nodup ?_ ?_).mpr ?_
        · exact List.Nodup.of_map Prod.fst (hIA.2 (k, cc) he).1
        · exact List.Nodup.of_map Prod.fst (hIA2.2 (k, cc2) he2).1
        · rintro ⟨c, n⟩
          rw [mem_inner_iff hIA he c n, mem_inner_iff hIA2 he2 c n, hcount k c]
      exact List.mem_map.mpr ⟨(k, cc2), he2, (rowFor_congr hperm).symm⟩

/-- The group keys of the report rows are the keys of the aggregation. -/
theorem rows_map_rowKey (A : Agg) : (A.map rowFor).map rowKey = A.map Prod.fst := by
  rw [List.map_map]
  exact List.map_congr_left fun e he => rfl

/-- The report rows of an invariant aggregation have no repeated group key. -/
theorem rows_key_nodup {A : Agg} (hIA : AggInv A) : ((A.map rowFor).map rowKey).Nodup := by
  rw [rows_map_rowKey]
  exact hIA.1

/-- Two invariant aggregations with the same counts have permuted report
rows. -/
theorem reportRows_perm {A A2 : Agg} (hIA : AggInv A) (hIA2 : AggInv A2)
    (hcount : ∀ k c, countOf A k c = countOf A2 k c) :
    (A.map rowFor).Perm (A2.map rowFor) := by
  refine (List.perm_ext_iff_of_nodup ?_ ?_).mpr ?_
  · exact List.Nodup.of_map rowKey (rows_key_nodup hIA)
  · exact List.Nodup.of_map rowKey (rows_key_nodup hIA2)
  · intro x
    exact ⟨mem_rows_mono hIA hIA2 hcount x,
      mem_rows_mono hIA2 hIA (fun k c => (hcount k c).symm) x⟩

/-- The per-record counts are invariant under permutation of the records. -/
theorem keyCount_perm {rs rs2 : List Record} (h : rs.Perm rs2) (k : String × Nat) (c : String) :
    keyCount rs k c = keyCount rs2 k c :=
  (h.filter _).length_eq

/-- The analysed and sorted pipeline output is the same for permuted record
lists. -/
theorem sorted_pipeline_eq {rs rs2 : List Record} (hp : rs.Perm rs2) :
    Except.map sortRows (analyse_data (aggRecords rs)) =
      Except.map sortRows (analyse_data (aggRecords rs2)) := by
  have hIA := AggInv_aggRecords rs
  have hIA2 := AggInv_aggRecords rs2
  have hcount : ∀ k c, countOf (aggRecords rs) k c = countOf (aggRecords rs2) k c := by
    intro k c
    rw [countOf_aggRecords, countOf_aggRecords, keyCount_perm hp]
  rw [analyse_data_ok _ (AggInv_total_ne_zero hIA), analyse_data_ok _ (AggInv_total_ne_zero hIA2)]
  simp only [Except.map]
  rw [sortRows_eq_of_perm (reportRows_perm hIA hIA2 hcount) (rows_key_nodup hIA)]

/-- pyRound at an integer is that integer. -/
theorem pyRound_intCast (z : ℤ) : pyRound ((z : ℚ)) = z := by
  unfold pyRound
  rw [Int.floor_intCast]
  rw [if_pos]
  rw [sub_self]
  norm_num

/-- pyRound at a half-integer rounds to the even neighbour. -/
theorem pyRound_half_int (k : ℤ) : pyRound ((k : ℚ) + 1 / 2) = if 2 ∣ k then k else k + 1 := by
  have hfloor : Int.floor ((k : ℚ) + 1 / 2) = k := by
    rw [add_comm, Int.floor_add_int]
    norm_num
  have hfrac : ((k : ℚ) + 1 / 2) - (k : ℚ) = 1 / 2 := by ring
  unfold pyRound
  rw [hfloor, hfrac]
  rw [if_neg (lt_irrefl ((1 : ℚ) / 2)), if_neg (lt_irrefl ((1 : ℚ) / 2))]
  by_cases hk : 2 ∣ k
  · have hk0 : k % 2 = 0 := Int.emod_eq_zero_of_dvd hk
    rw [if_pos hk0, if_pos hk]
  · have hk0 : k % 2 ≠ 0 := fun h => hk (Int.dvd_of_emod_eq_zero h)
    rw [if_neg hk0, if_neg hk]

/-- The natural rounding computes pyRound of the exact fraction. -/
theorem pyRound_natCast_div (a b : Nat) (hb : b ≠ 0) :
    pyRound ((a : ℚ) / (b : ℚ)) = (divRound a b : ℤ) := by
  have hbpos : 0 < b := Nat.pos_of_ne_zero hb
  have hb0 : (0 : ℚ) < (b : ℚ) := by exact_mod_cast hbpos
  have hrb : a % b < b := Nat.mod_lt a hbpos
  have hsingle : ((a % b : ℕ) : ℚ) = (a : ℚ) - ((a / b : ℕ) : ℚ) * b := by
    have hdm := congrArg (fun t : Nat => (t : ℚ)) (Nat.div_add_mod a b)
    push_cast at hdm
    linarith [hdm]
  have hdc : (((a / b : ℕ) : ℤ) : ℚ) = ((a / b : ℕ) : ℚ) := by
    norm_cast
  have hsplit : (a : ℚ) / b = ((a % b : ℕ) : ℚ) / b + ((a / b : ℕ) : ℤ) := by
    rw [hdc, hsingle, sub_div, mul_div_assoc, div_self (ne_of_gt hb0), mul_one]
    ring
  have hfloor : Int.floor ((a : ℚ) / b) = ((a / b : ℕ) : ℤ) := by
    rw [hsplit, Int.floor_add_int]
    have h0 : (0 : ℚ) ≤ ((a % b : ℕ) : ℚ) / b := by positivity
    have h1 : ((a % b : ℕ) : ℚ) / b < 1 := by
      rw [div_lt_one hb0]
      exact_mod_cast hrb
    rw [Int.floor_eq_zero_iff.mpr ⟨h0, h1⟩]
    ring
  have hfrac : (a : ℚ) / b - (((a / b : ℕ) : ℤ) : ℚ) = ((a % b : ℕ) : ℚ) / b := by
    rw [hsplit]
    ring
  have hc1 : ((a % b : ℕ) : ℚ) / b < 1 / 2 ↔ 2 * (a % b) < b := by
    rw [div_lt_div_iff₀ hb0 (by norm_num : (0 : ℚ) < 2)]
    constructor
    · intro h
      have : ((a % b : ℕ) : ℚ) * 2 < 1 * b := h
      rw [one_mul] at this
      have h2 : ((a % b) * 2 : ℕ) < (b : ℕ) := by exact_mod_cast this
      omega
    · intro h
      have h2 : ((a % b) * 2 : ℕ) < (b : ℕ) := by omega
      have : ((a % b : ℕ) : ℚ) * 2 < (b : ℚ) := by exact_mod_cast h2
      rw [one_mul]
      exact this
  have hc2 : 1 / 2 < ((a % b : ℕ) : ℚ) / b ↔ b < 2 * (a % b) := by
    rw [div_lt_div_iff₀ (by norm_num : (0 : ℚ) < 2) hb0]
    constructor
    · intro h
      have : 1 * (b : ℚ) < ((a % b : ℕ) : ℚ) * 2 := h
      rw [one_mul] at this
      have h2 : (b : ℕ) < ((a % b) * 2 : ℕ) := by exact_mod_cast this
      omega
    · intro h
      have h2 : (b : ℕ) < ((a % b) * 2 : ℕ) := by omega
      have : (b : ℚ) < ((a % b : ℕ) : ℚ) * 2 := by exact_mod_cast h2
      rw [one_mul]
      exact this
  unfold pyRound divRound
  rw [hfloor, hfrac]
  by_cases h1 : 2 * (a % b) < b
  · rw [if_pos (hc1.mpr h1), if_pos h1]
  · by_cases h2 : b < 2 * (a % b)
    · rw [if_neg (fun h => h1 (hc1.mp h)), if_pos (hc2.mpr h2), if_neg h1, if_pos h2]
      push_cast
      ring
    · by_cases h3 : (a / b) % 2 = 0
      · rw [if_neg (fun h => h1 (hc1.mp h)), if_neg (fun h => h2 (hc2.mp h)), if_neg h1,
          if_neg h2, if_pos (by exact_mod_cast h3 : ((a / b : ℕ) : ℤ) % 2 = 0), if_pos h3]
      · rw [if_neg (fun h => h1 (hc1.mp h)), if_neg (fun h => h2 (hc2.mp h)), if_neg h1,
          if_neg h2, if_neg (by exact_mod_cast h3 : ¬ ((a / b : ℕ) : ℤ) % 2 = 0), if_neg h3]
        push_cast
        ring

/-- The percentage stored in a report row is the rounded exact rational
percentage. -/
theorem percent_eq (mx t : Nat) (ht : t ≠ 0) :
    (divRound (mx * 100) t : ℤ) = pyRound ((mx : ℚ) / (t : ℚ) * 100) := by
  rw [← pyRound_natCast_div (mx * 100) t ht]
  congr 1
  push_cast
  ring

/-- The builtin round applied to a represented double is pyRound of the exact
rational value of that double. -/
theorem fpRound_eq_pyRound (x : Fp) : (fpRound x : ℤ) = pyRound (fpVal x) := by
  unfold fpRound fpVal
  by_cases h : 0 ≤ x.scale
  · rw [if_pos h]
    have hv : (x.mant : ℚ) * (2 : ℚ) ^ x.scale =
        (((x.mant * 2 ^ x.scale.toNat : ℕ) : ℤ) : ℚ) := by
      push_cast
      rw [← zpow_natCast (2 : ℚ) x.scale.toNat, Int.toNat_of_nonneg h]
    rw [hv, pyRound_intCast]
  · rw [if_neg h]
    have h2 : ((2 ^ (-x.scale).toNat : ℕ) : ℚ) = (2 : ℚ) ^ (-x.scale) := by
      push_cast
      rw [← zpow_natCast (2 : ℚ) (-x.scale).toNat, Int.toNat_of_nonneg (by omega)]
    have hv : (x.mant : ℚ) * (2 : ℚ) ^ x.scale =
        (x.mant : ℚ) / ((2 ^ (-x.scale).toNat : ℕ) : ℚ) := by
      rw [h2, div_eq_mul_inv, ← zpow_neg, neg_neg]
    rw [hv]
    exact (pyRound_natCast_div _ _ (by positivity)).symm

/-- data_filter on a row of the expected length proceeds to the date check
and the field extraction. -/
theorem data_filter_eq_of_len (d : String) (rest : List String) (n : Nat)
    (hlen : (d :: rest).length = n) :
    data_filter (d :: rest) n =
      match get_year d with
      | none => .ok none
      | some year =>
          match (d :: rest)[1]?, (d :: rest)[7]? with
          | some p, some c => .ok (some (year, clean_text p, clean_text c))
          | _, _ => .error "IndexError: list index out of range" := by
  simp [data_filter, hlen, List.getElem?_cons_zero]

/-- C2: for every data row and an expected column count of at least one,
data_filter rejects the row exactly when the field count differs from the
expected count or the field at index 0 does not parse as a date; a rejected
row can be dropped from the stream without changing the aggregation of the
remaining rows, and processing continues. -/
theorem claim2_data_filter_reject (row : List String) (n : Nat) (h1 : 1 ≤ n) :
    ((data_filter row n = .ok none) ↔
      (row.length ≠ n ∨ get_year (row.headD "") = none)) ∧
    ∀ (pre post : List (List String)) (agg : Agg), data_filter row n = .ok none →
      read_csv_loop n agg (pre ++ row :: post) = read_csv_loop n agg (pre ++ post) := by
  constructor
  · constructor
    · intro h
      by_cases hlen : row.length = n
      · right
        cases row with
        | nil =>
            rw [← hlen] at h1
            simp at h1
        | cons d rest =>
            rw [data_filter_eq_of_len d rest n hlen] at h
            cases hy : get_year d with
            | none => simpa using hy
            | some y =>
                rw [hy] at h
                cases h17 : (d :: rest)[1]? with
                | none => rw [h17] at h; simp at h
                | some p =>
                    cases h77 : (d :: rest)[7]? with
                    | none => rw [h17, h77] at h; simp at h
                    | some c => rw [h17, h77] at h; simp at h
      · exact Or.inl hlen
    · intro h
      rcases h with h | h
      · simp [data_filter, h]
      · by_cases hlen : row.length = n
        · cases row with
          | nil =>
              rw [← hlen] at h1
              simp at h1
          | cons d rest =>
              rw [data_filter_eq_of_len d rest n hlen]
              rw [show get_year d = none from by simpa using h]
        · simp [data_filter, hlen]
  · intro pre post agg hrej
    exact read_csv_loop_skip n row hrej pre post agg

/-- C3: a row with the expected column count, of at least 8 columns, and a
valid date in field 0 passes data_filter, which extracts the year of the date
and the trimmed lowercased fields 1 and 7; the normalization makes the
product and company grouping case and spacing insensitive. -/
theorem claim3_data_filter_success (row : List String) (n : Nat) (h8 : 8 ≤ n)
    (hlen : row.length = n) (y : Nat) (hy : get_year (row.headD "") = some y) :
    data_filter row n = .ok (some (y, clean_text (row.getD 1 ""), clean_text (row.getD 7 ""))) ∧
    clean_text "  ABC " = clean_text "abc" := by
  refine ⟨?_, by rfl⟩
  cases row with
  | nil =>
      rw [← hlen] at h8
      simp at h8
  | cons d rest =>
      rw [data_filter_eq_of_len d rest n hlen]
      rw [show get_year d = some y from by simpa using hy]
      have hl8 : 8 ≤ (d :: rest).length := hlen ▸ h8
      have h17 : (d :: rest)[1]? = some ((d :: rest).getD 1 "") := by
        rw [List.getD_eq_getElem?_getD]
        rw [List.getElem?_eq_getElem (by omega)]
        simp
      have h77 : (d :: rest)[7]? = some ((d :: rest).getD 7 "") := by
        rw [List.getD_eq_getElem?_getD]
        rw [List.getElem?_eq_getElem (by omega)]
        simp
      rw [h17, h77]

/-- C10: strptime-style parsing accepts dates that are not zero padded, such
as 2021-6-5, so data_filter accepts such rows and extracts the year, while a
month out of range or a non-date string is rejected. -/
theorem claim10_nonpadded_dates :
    get_year "2021-6-5" = some 2021 ∧
    data_filter ["2021-6-5", " Loan ", "", "", "", "", "", " BankX "] 8 =
      .ok (some (2021, "loan", "bankx")) ∧
    get_year "2021-13-05" = none ∧
    get_year "not-a-date" = none ∧
    get_year "2021-06-15" = some 2021 :=
  ⟨rfl, rfl, rfl, rfl, rfl⟩

/-- Witness for C2 at a concrete rejected row: the bad-date row is rejected
and dropping it from the stream leaves the read loop unchanged. -/
theorem claim2_witness :
    data_filter ["2020-13-40", "p", "", "", "", "", "", "c"] 8 = .ok none ∧
    read_csv_loop 8 []
        [["2021-06-15", "Loan", "", "", "", "", "", "BankX"],
         ["2020-13-40", "p", "", "", "", "", "", "c"]] =
      read_csv_loop 8 [] [["2021-06-15", "Loan", "", "", "", "", "", "BankX"]] := by
  have h := claim2_data_filter_reject ["2020-13-40", "p", "", "", "", "", "", "c"] 8 (by decide)
  have hrej : data_filter ["2020-13-40", "p", "", "", "", "", "", "c"] 8 = .ok none :=
    h.1.mpr (Or.inr (by rfl))
  exact ⟨hrej, h.2 [["2021-06-15", "Loan", "", "", "", "", "", "BankX"]] [] [] hrej⟩

/-- Witness for C3 at a concrete accepted row: the date contributes its year
and the product and company fields are normalized. -/
theorem claim3_witness :
    data_filter ["2021-06-15", "  ABC ", "", "", "", "", "", " BankX "] 8 =
      .ok (some (2021, "abc", "bankx")) ∧
    clean_text "  ABC " = clean_text "abc" := by
  have h := claim3_data_filter_success ["2021-06-15", "  ABC ", "", "", "", "", "", " BankX "]
    8 (by decide) (by rfl) 2021 (by rfl)
  exact ⟨h.1.trans (by rfl), h.2⟩

/-- C1 (corrected): a non-empty aggregation group, with the positive counts
and distinct companies the aggregation stage guarantees, is analysed to
exactly one report row carrying the sum of the counts, the number of distinct
companies, and the builtin round applied to the double-precision evaluation
of max/total times 100. -/
theorem claim1_analyse_group (key : String × Nat) (cc : CompanyCounts)
    (hne : cc ≠ []) (hpos : ∀ p ∈ cc, 1 ≤ p.2) (hnd : (cc.map Prod.fst).Nodup) :
    ∃ row, analyse_data [(key, cc)] = .ok [row] ∧
      row.product = key.1 ∧ row.year = key.2 ∧
      row.total_complaints = (cc.map Prod.snd).sum ∧
      row.total_companies = (cc.map Prod.fst).dedup.length ∧
      (row.highest_complaint_percent : ℤ) =
        pyRound (fpVal (floatMul100 (floatDiv ((cc.map Prod.snd).foldr Nat.max 0)
          ((cc.map Prod.snd).sum)))) := by
  have hsum : (cc.map Prod.snd).sum ≠ 0 := by
    have := totalAndMax_pos hne hpos
    rw [totalAndMax_eq] at this
    omega
  have htot : (totalAndMax cc).1 ≠ 0 := by
    rw [totalAndMax_eq]
    exact hsum
  refine ⟨rowFor (key, cc), ?_, rfl, rfl, ?_, ?_, ?_⟩
  · have := analyse_data_ok [(key, cc)] (by
      intro e he
      rw [List.mem_singleton] at he
      subst he
      exact htot)
    simpa using this
  · show (totalAndMax cc).1 = _
    rw [totalAndMax_eq]
  · show cc.length = _
    rw [hnd.dedup, List.length_map]
  · show ((pyRoundPercent (totalAndMax cc).2 (totalAndMax cc).1 : ℕ) : ℤ) = _
    rw [totalAndMax_eq]
    exact fpRound_eq_pyRound _

/-- Counterexample to C1 as stated: for the group with counts 23 and 17 the
exact share is the half-integer 57.5 percent, and round of the exact value is
58 under round-half-to-even and under round-half-up alike, yet the program
emits 57, because the double-precision value of 23/40*100 falls just below
57.5. -/
theorem claim1_counterexample :
    analyse_data [(("p", 2020), [("a", 23), ("b", 17)])] =
      .ok [{ product := "p", year := 2020, total_complaints := 40,
             total_companies := 2, highest_complaint_percent := 57 }] ∧
    ((((([("a", 23), ("b", 17)] : CompanyCounts).map Prod.snd).foldr Nat.max 0 : ℕ) : ℚ) /
        (((([("a", 23), ("b", 17)] : CompanyCounts).map Prod.snd).sum : ℕ) : ℚ) * 100
      = 57 + 1 / 2) ∧
    pyRound (57 + 1 / 2) = 58 ∧
    Int.floor ((57 : ℚ) + 1 / 2 + 1 / 2) = 58 := by
  refine ⟨by rfl, ?_, ?_, ?_⟩
  · have e1 : (([("a", 23), ("b", 17)] : CompanyCounts).map Prod.snd).foldr Nat.max 0 = 23 := by
      rfl
    have e2 : (([("a", 23), ("b", 17)] : CompanyCounts).map Prod.snd).sum = 40 := by rfl
    rw [e1, e2]
    push_cast
    norm_num
  · have h57 : ((57 : ℤ) : ℚ) = (57 : ℚ) := by norm_num
    rw [← h57, pyRound_half_int]
    decide
  · have h58 : (57 : ℚ) + 1 / 2 + 1 / 2 = ((58 : ℤ) : ℚ) := by norm_num
    rw [h58, Int.floor_intCast]

/-- Witness for C1 at the group with counts 3 and 7: ten complaints, two
companies, and a highest share of 70 percent. -/
theorem claim1_witness :
    analyse_data [(("credit card", 2019), [("a", 3), ("b", 7)])] =
      .ok [{ product := "credit card", year := 2019, total_complaints := 10,
             total_companies := 2, highest_complaint_percent := 70 }] := by
  obtain ⟨row, hrow, h2, h3, h4, h5, h6⟩ := claim1_analyse_group ("credit card", 2019)
    [("a", 3), ("b", 7)] (by decide) (by decide) (by decide)
  have e1 : (([("a", 3), ("b", 7)] : CompanyCounts).map Prod.snd).foldr Nat.max 0 = 7 := by rfl
  have e2 : (([("a", 3), ("b", 7)] : CompanyCounts).map Prod.snd).sum = 10 := by rfl
  have e3 : (([("a", 3), ("b", 7)] : CompanyCounts).map Prod.fst).dedup.length = 2 := by rfl
  rw [e1, e2] at h6
  have hfp : floatMul100 (floatDiv 7 10) = ⟨4925812092436480, -46⟩ := by rfl
  rw [hfp] at h6
  have hval : fpVal ⟨4925812092436480, -46⟩ = ((70 : ℤ) : ℚ) := by
    unfold fpVal
    norm_num
  rw [hval, pyRound_intCast] at h6
  have h6n : row.highest_complaint_percent = 70 := by exact_mod_cast h6
  rw [e2] at h4
  rw [e3] at h5
  rw [hrow]
  obtain ⟨rp, ry, rt, rc, rh⟩ := row
  simp only at h2 h3 h4 h5 h6n
  rw [h2, h3, h4, h5, h6n]

/-- C4: the aggregation stage maps each (product, year) key and company to
exactly the number of records with that product, year and company, and each
record increments its own key and company count by exactly one; no record is
rejected at this stage. -/
theorem claim4_aggregation_counts (records : List Record) (p : String) (y : Nat) (c : String) :
    countOf (aggRecords records) (p, y) c =
      (records.filter fun r => decide (r.product = p ∧ r.year = y ∧ r.company = c)).length ∧
    ∀ (agg : Agg) (r : Record),
      countOf (addRecord agg r) (r.product, r.year) r.company =
        countOf agg (r.product, r.year) r.company + 1 := by
  constructor
  · rw [countOf_aggRecords]
    unfold keyCount
    congr 1
    apply List.filter_congr
    intro r hr
    apply decide_eq_decide.mpr
    rw [Prod.mk.injEq, and_assoc]
  · intro agg r
    show countOf (addComplaint agg (r.product, r.year) r.company) _ _ = _
    rw [countOf_addComplaint]
    simp

/-- C5: the report writer emits the rows sorted ascending by (product, year),
one CSV record per row with the five fields in order and no header; the
concrete groups of the specification are emitted in the stated order. -/
theorem claim5_report_writer :
    (∀ rows : List ReportRow, ∃ sorted : List ReportRow,
        sorted.Perm rows ∧ sorted.Sorted leRow ∧
        sort_write_csv rows = String.join (sorted.map writeRow)) ∧
    sortRows
        [{ product := "visa", year := 2021, total_complaints := 4, total_companies := 2,
           highest_complaint_percent := 50 },
         { product := "loan", year := 2019, total_complaints := 10, total_companies := 2,
           highest_complaint_percent := 70 },
         { product := "loan", year := 2020, total_complaints := 1, total_companies := 1,
           highest_complaint_percent := 100 }] =
      [{ product := "loan", year := 2019, total_complaints := 10, total_companies := 2,
         highest_complaint_percent := 70 },
       { product := "loan", year := 2020, total_complaints := 1, total_companies := 1,
         highest_complaint_percent := 100 },
       { product := "visa", year := 2021, total_complaints := 4, total_companies := 2,
         highest_complaint_percent := 50 }] ∧
    sort_write_csv
        [{ product := "visa", year := 2021, total_complaints := 4, total_companies := 2,
           highest_complaint_percent := 50 },
         { product := "loan", year := 2019, total_complaints := 10, total_companies := 2,
           highest_complaint_percent := 70 },
         { product := "loan", year := 2020, total_complaints := 1, total_companies := 1,
           highest_complaint_percent := 100 }] =
      "loan,2019,10,2,70\r\nloan,2020,1,1,100\r\nvisa,2021,4,2,50\r\n" := by
  refine ⟨?_, by rfl, by rfl⟩
  intro rows
  exact ⟨sortRows rows, sortRows_perm rows, sortRows_sorted rows, rfl⟩

/-- C6: every aggregation the reader produces satisfies the invariant that
each stored group is non-empty with all counts at least 1, so each group
total is at least 1 when it reaches the analyser. -/
theorem claim6_aggregation_invariant (csvRows : List (List String)) (agg : Agg)
    (h : read_csv csvRows = .ok agg) :
    ∀ e ∈ agg, e.2 ≠ [] ∧ (∀ p ∈ e.2, 1 ≤ p.2) ∧ 1 ≤ (e.2.map Prod.snd).sum := by
  have hInv := AggInv_read_csv csvRows agg h
  intro e he
  have h2 := hInv.2 e he
  refine ⟨h2.2.1, h2.2.2, ?_⟩
  have := totalAndMax_pos h2.2.1 h2.2.2
  rw [totalAndMax_eq] at this
  exact this

/-- Witness for C6 at a concrete input file and its one resulting group: the
group is non-empty with counts at least 1 and total at least 1. -/
theorem claim6_witness :
    ([(("bankx" : String), (1 : Nat))] : CompanyCounts) ≠ [] ∧
    (∀ p ∈ ([(("bankx" : String), (1 : Nat))] : CompanyCounts), 1 ≤ p.2) ∧
    1 ≤ ((([(("bankx" : String), (1 : Nat))] : CompanyCounts)).map Prod.snd).sum :=
  claim6_aggregation_invariant
    [["h1", "h2", "h3", "h4", "h5", "h6", "h7", "h8"],
     ["2021-06-15", " Loan ", "", "", "", "", "", " BankX "]]
    [((("loan" : String), (2021 : Nat)), [(("bankx" : String), (1 : Nat))])] (by rfl)
    ((("loan", 2021), [(("bankx" : String), (1 : Nat))])) (by decide)

/-- C7: the sorted pipeline output is invariant under permutation of the
validated input records. -/
theorem claim7_permutation_invariance (rs rs2 : List Record) (h : rs.Perm rs2) :
    Except.map sortRows (analyse_data (aggRecords rs)) =
      Except.map sortRows (analyse_data (aggRecords rs2)) :=
  sorted_pipeline_eq h

/-- Witness for C7 at two concrete record lists that are permutations of each
other. -/
theorem claim7_witness :
    Except.map sortRows (analyse_data (aggRecords
        [{ year := 2021, product := "loan", company := "bankx" },
         { year := 2019, product := "card", company := "visa" }])) =
      Except.map sortRows (analyse_data (aggRecords
        [{ year := 2019, product := "card", company := "visa" },
         { year := 2021, product := "loan", company := "bankx" }])) :=
  claim7_permutation_invariance _ _
    (List.Perm.swap ({ year := 2019, product := "card", company := "visa" } : Record)
      ({ year := 2021, product := "loan", company := "bankx" } : Record) [])

/-- C8 (corrected): the program applies round-half-to-even to the
double-precision evaluation of max/total times 100, not one exact-value
policy at half-integer landings; whenever the computed double is itself
exactly a half-integer k + 1/2, the emitted percent is the even neighbour
of k. -/
theorem claim8_half_even (key : String × Nat) (cc : CompanyCounts) (k : ℤ)
    (hhalf : fpVal (floatMul100 (floatDiv ((cc.map Prod.snd).foldr Nat.max 0)
        ((cc.map Prod.snd).sum))) = (k : ℚ) + 1 / 2)
    (hnz : (cc.map Prod.snd).sum ≠ 0) :
    ∃ row, analyse_data [(key, cc)] = .ok [row] ∧
      (row.highest_complaint_percent : ℤ) = if 2 ∣ k then k else k + 1 := by
  have htot : (totalAndMax cc).1 ≠ 0 := by
    rw [totalAndMax_eq]
    exact hnz
  refine ⟨rowFor (key, cc), ?_, ?_⟩
  · have := analyse_data_ok [(key, cc)] (by
      intro e he
      rw [List.mem_singleton] at he
      subst he
      exact htot)
    simpa using this
  · have h := fpRound_eq_pyRound (floatMul100 (floatDiv ((cc.map Prod.snd).foldr Nat.max 0)
      ((cc.map Prod.snd).sum)))
    rw [hhalf, pyRound_half_int] at h
    show ((pyRoundPercent (totalAndMax cc).2 (totalAndMax cc).1 : ℕ) : ℤ) = _
    rw [totalAndMax_eq]
    exact h

/-- Counterexample to C8 as stated: both groups below land on exact
half-integer shares, yet the program emits 88 for counts 1 and 7 (exact
87.5, whose double evaluation is exact) and 57 for counts 23 and 17 (exact
57.5, whose double evaluation falls just below the tie), while both
candidate exact-value policies give 58 there, so no single exact-value
policy matches the program. -/
theorem claim8_counterexample :
    analyse_data [(("q", 2021), [("c", 1), ("d", 7)])] =
      .ok [{ product := "q", year := 2021, total_complaints := 8,
             total_companies := 2, highest_complaint_percent := 88 }] ∧
    analyse_data [(("q", 2021), [("c", 23), ("d", 17)])] =
      .ok [{ product := "q", year := 2021, total_complaints := 40,
             total_companies := 2, highest_complaint_percent := 57 }] ∧
    (7 : ℚ) / 8 * 100 = 87 + 1 / 2 ∧
    (23 : ℚ) / 40 * 100 = 57 + 1 / 2 ∧
    pyRound (87 + 1 / 2) = 88 ∧ pyRound (57 + 1 / 2) = 58 ∧
    Int.floor ((57 : ℚ) + 1 / 2 + 1 / 2) = 58 := by
  refine ⟨by rfl, by rfl, by norm_num, by norm_num, ?_, ?_, ?_⟩
  · have h87 : ((87 : ℤ) : ℚ) = (87 : ℚ) := by norm_num
    rw [← h87, pyRound_half_int]
    decide
  · have h57 : ((57 : ℤ) : ℚ) = (57 : ℚ) := by norm_num
    rw [← h57, pyRound_half_int]
    decide
  · have h58 : (57 : ℚ) + 1 / 2 + 1 / 2 = ((58 : ℤ) : ℚ) := by norm_num
    rw [h58, Int.floor_intCast]

/-- Witness for C8 at the group with counts 1 and 7: the double evaluation
of the share is exactly 87.5 and the emitted value is the even neighbour
88. -/
theorem claim8_witness :
    ∃ row, analyse_data [(("visa", 2021), [("a", 1), ("b", 7)])] = .ok [row] ∧
      (row.highest_complaint_percent : ℤ) = 88 := by
  obtain ⟨row, h1, h2⟩ := claim8_half_even ("visa", 2021) [("a", 1), ("b", 7)] 87
    (by
      have e1 : (([("a", 1), ("b", 7)] : CompanyCounts).map Prod.snd).foldr Nat.max 0 = 7 := by
        rfl
      have e2 : (([("a", 1), ("b", 7)] : CompanyCounts).map Prod.snd).sum = 8 := by rfl
      rw [e1, e2]
      have hfp : floatMul100 (floatDiv 7 8) = ⟨6157265115545600, -46⟩ := by rfl
      rw [hfp]
      unfold fpVal
      push_cast
      norm_num)
    (by decide)
  refine ⟨row, h1, ?_⟩
  rw [h2]
  decide

/-- C9: an aggregation in which some key stores an empty group makes
analyse_data fail with an error instead of producing a report row for it. -/
theorem claim9_empty_group_error (agg : Agg) (key : String × Nat) (h : (key, []) ∈ agg) :
    ∃ msg, analyse_data agg = .error msg := by
  induction agg with
  | nil => cases h
  | cons e rest ih =>
      rcases List.mem_cons.mp h with hh | hh
      · refine ⟨"ZeroDivisionError: division by zero", ?_⟩
        rw [← hh]
        rfl
      · obtain ⟨msg, hmsg⟩ := ih hh
        cases hg : analyse_group e with
        | error m => exact ⟨m, by simp [analyse_data, hg]⟩
        | ok row => exact ⟨msg, by simp [analyse_data, hg, hmsg]⟩

/-- Witness for C9 at a concrete aggregation holding an empty group. -/
theorem claim9_witness :
    ∃ msg, analyse_data [((("visa" : String), (2020 : Nat)), ([] : CompanyCounts))] =
      .error msg :=
  claim9_empty_group_error _ ("visa", 2020) (by decide)
